import Mathlib

/-!
Verification of the Station Identity Resolution & Consolidation Engine of the
singapore-rail-data repository.

The development shallowly embeds the two core modules

  * `src/src/processors/consolidator.py`      (class `Consolidator`)
  * `src/src/processors/matching_engine.py`   (class `MatchingEngine`)

and the geo helpers of `src/processors/spatial_utils.py` they import.

Embedding conventions:

  * Python `str` is embedded as `List Char` (`Str` below); the Python string
    methods used by the code (`strip`, `upper`, `replace`, `startswith`,
    slicing) and the handful of regular expressions are each embedded as
    executable functions on `List Char`, faithful to CPython semantics on the
    character sets these claims exercise (Python `\s` and `str.strip` also
    cover `\x0b`/`\x0c`, which never occur in any statement proved here).
  * Python floats are embedded as exact rationals `ℚ`.  Every claim-relevant
    float comparison in the source is a comparison of a distance against a
    small literal threshold, and every concrete input used below makes the
    distances exact (coincident points), so no rounding issue is being hidden.
  * `haversine_distance` (trigonometry on floats, imported by the consolidator
    from `spatial_utils`) enters the merge criteria only through comparisons
    `dist < threshold`; it is passed to the embedded functions as an explicit
    parameter `dist : Pt → Pt → ℚ`, so every universal theorem below holds for
    the real haversine function in particular.  Concrete counterexamples place
    all exits at a single coordinate and instantiate `dist` with the constant
    zero function, which agrees exactly with the source's haversine there
    (`haversine_distance(p, p) == 0.0` holds exactly, even in floats).
  * the `rapidfuzz` similarity score used by `MatchingEngine.match_station`
    is an external library collaborator and is likewise a parameter
    `score : Str → Str → ℚ`.
  * recursive string scanners carry an explicit fuel argument (initialised
    with the string length, which every scan step strictly decreases) so that
    all definitions reduce inside the kernel.
-/

namespace SgRail

/-- Python `str` values, embedded as lists of characters. -/
abbrev Str := List Char

/-! ## Python string primitives -/

/-- Python `str.upper()` (ASCII letters; all source data is ASCII). -/
def upperS (s : Str) : Str := s.map Char.toUpper

/-- Left part of Python `str.strip()`: drop leading whitespace. -/
def trimLeftS (s : Str) : Str := s.dropWhile Char.isWhitespace

/-- Right part of Python `str.strip()`: drop trailing whitespace. -/
def trimRightS (s : Str) : Str := (trimLeftS s.reverse).reverse

/-- Python `str.strip()` with no argument: drop whitespace from both ends. -/
def trimS (s : Str) : Str := trimRightS (trimLeftS s)

/-- Fueled worker for Python `str.replace(pat, repl)`: replace every
non-overlapping occurrence, scanning left to right.  The fuel is initialised
with the length of the subject string; each step consumes at least one
character, so the `fuel = 0` branch is never reached from `replaceAll`. -/
def replaceAllF (pat repl : Str) : Nat → Str → Str
  | _, [] => []
  | 0, s => s
  | fuel + 1, c :: rest =>
    if pat ≠ [] ∧ pat.isPrefixOf (c :: rest) then
      repl ++ replaceAllF pat repl fuel ((c :: rest).drop pat.length)
    else
      c :: replaceAllF pat repl fuel rest

/-- Python `s.replace(pat, repl)` (the source only calls it with a non-empty
pattern). -/
def replaceAll (pat repl s : Str) : Str := replaceAllF pat repl s.length s

/-- Python string comparison `<` (lexicographic on code points; a strict
prefix is smaller). -/
def strLt : Str → Str → Bool
  | _, [] => false
  | [], _ :: _ => true
  | a :: as, b :: bs => if a < b then true else if b < a then false else strLt as bs

/-- Insert into a strictly sorted list of strings, dropping the element when
it is already present. -/
def insertStr (x : Str) : List Str → List Str
  | [] => [x]
  | y :: ys =>
    if strLt x y then x :: y :: ys
    else if x = y then y :: ys
    else y :: insertStr x ys

/-- Python `sorted(list(set(l)))` for a list of strings: the strictly
ascending enumeration of the distinct elements of `l`.  (This value is
uniquely determined by membership, so the arbitrary iteration order of the
Python `set` is irrelevant.) -/
def sortUnique (l : List Str) : List Str := l.foldl (fun acc x => insertStr x acc) []

/-- One insertion step of a stable insertion sort: place `x` after every
already-placed element `y` with `le y x`. -/
def insertLe {α : Type} (le : α → α → Bool) (x : α) : List α → List α
  | [] => [x]
  | y :: ys => if le y x then y :: insertLe le x ys else x :: y :: ys

/-- Python `sorted(l, key = k)`: a stable sort.  Feeding the elements left to
right and inserting each after its equals reproduces Python's result exactly
(stability plus sortedness determines the output of any stable sort). -/
def sortStable {α : Type} (le : α → α → Bool) (l : List α) : List α :=
  l.foldl (fun acc x => insertLe le x acc) []

/-! ## Data model and geo math

`ExitPoint`, `RawMatch` (the consolidator's input records) and `Station`
(its output records) embed the Python dicts used by the pipeline, with exact
rational coordinates. -/

/-- One physical station exit: `{exit_code, lat, lng}`. -/
structure ExitPoint where
  exit_code : Str
  lat : ℚ
  lng : ℚ
deriving DecidableEq, Inhabited

/-- A coordinate pair, as returned by `calculate_centroid`. -/
structure Pt where
  lat : ℚ
  lng : ℚ
deriving DecidableEq, Inhabited

/-- A resolved match fed to `Consolidator.consolidate`:
`{official_name, codes, exits}`. -/
structure RawMatch where
  official_name : Str
  codes : List Str
  exits : List ExitPoint
deriving DecidableEq, Inhabited

/-- A consolidated station: `{official_name, mrt_codes, exits}`. -/
structure Station where
  official_name : Str
  mrt_codes : List Str
  exits : List ExitPoint
deriving DecidableEq, Inhabited

/-- `spatial_utils.calculate_centroid`: arithmetic mean of the coordinates,
`None` on an empty list. -/
def calculate_centroid (l : List ExitPoint) : Option Pt :=
  if l = [] then none
  else some ⟨(l.map ExitPoint.lat).sum / l.length, (l.map ExitPoint.lng).sum / l.length⟩

/-- The centroid as used inside `consolidate`/`match_station`.  On an empty
exit list the Python code would raise a `TypeError` (it subscripts `None`);
all claims restrict attention to non-empty exit lists, where the default
value below is never produced. -/
def centroidD (l : List ExitPoint) : Pt := (calculate_centroid l).getD ⟨0, 0⟩

/-! ## Consolidator (`src/src/processors/consolidator.py`) -/

/-- `Consolidator._get_base_name`: upper-case, then `str.replace` each of the
four suffix tokens (in source order) by the empty string, then `strip()`.
Note `str.replace` removes every occurrence, anywhere in the string. -/
def get_base_name (official_name : Str) : Str :=
  trimS (replaceAll " STATION".data []
    (replaceAll " LRT STATION".data []
      (replaceAll " MRT STATION".data []
        (replaceAll " MRT/LRT STATION".data [] (upperS official_name)))))

/-- `Consolidator._normalize_exit_code`.

The source first strips the input; if its length is `≤ 2` or it does not
start (case-insensitively) with `"EXIT"`, it removes a leading `EXIT` via
`re.sub(r'^EXIT', ..., flags = IGNORECASE)` (a no-op in that branch), strips,
and prepends `"Exit "`.  Otherwise it returns `"Exit "` followed by
`group(1)` of `re.search(r'EXIT\s*(.*)', code, IGNORECASE)`, stripped: the
text after the leading `EXIT` and the following whitespace, truncated at the
first newline (`.` does not match `\n`), and that search always succeeds in
this branch so the final `return code_str` of the source is dead code. -/
def normalize_exit_code (code : Str) : Str :=
  if (trimS code).length ≤ 2 ∨ ¬ ("EXIT".data.isPrefixOf (upperS (trimS code))) then
    "Exit ".data ++
      trimS (if "EXIT".data.isPrefixOf (upperS (trimS code)) then (trimS code).drop 4
             else trimS code)
  else
    "Exit ".data ++ trimS ((trimLeftS ((trimS code).drop 4)).takeWhile fun c => c ≠ '\n')

/-- The string on which `Consolidator._exit_sort_key` compares an exit:
`exit_code.replace("Exit ", "").strip()`. -/
def sortVal (e : ExitPoint) : Str := trimS (replaceAll "Exit ".data [] e.exit_code)

/-- Python `str.isdigit()` (ASCII digits): non-empty and all digits. -/
def isDigitS (s : Str) : Bool := s ≠ [] && s.all Char.isDigit

/-- Python `int(s)` on a digit string. -/
def digitsToNat (s : Str) : Nat := s.foldl (fun n c => 10 * n + (c.toNat - 48)) 0

/-- Strict comparison of the sort keys produced by
`Consolidator._exit_sort_key`: key `(1, int(val))` for a purely numeric
value, `(0, val.upper())` otherwise, keys compared as Python tuples. -/
def keyLt (a b : ExitPoint) : Bool :=
  match isDigitS (sortVal a), isDigitS (sortVal b) with
  | true, true => digitsToNat (sortVal a) < digitsToNat (sortVal b)
  | true, false => false
  | false, true => true
  | false, false => strLt (upperS (sortVal a)) (upperS (sortVal b))

/-- The non-strict comparator corresponding to `keyLt`; `sortStable exit_le`
reproduces Python's stable `sorted(..., key = self._exit_sort_key)`. -/
def exit_le (a b : ExitPoint) : Bool := ! keyLt b a

/-- The final per-station cleanup of `consolidate`: sort the exits. -/
def sortExits (l : List ExitPoint) : List ExitPoint := sortStable exit_le l

/-- Do two code lists share an element?  (`set(a) & set(b)` is truthy.) -/
def codesIntersect (a b : List Str) : Bool := a.any fun c => b.contains c

/-- The merge test of `consolidate`'s inner loop: criterion A (shared code,
distance below the spatial threshold), criterion B (identical official name,
distance below 300) or criterion C (equal base names, distance below the
threshold). -/
def criterion (dist : Pt → Pt → ℚ) (thr : ℚ) (m : RawMatch) (s : Station) : Bool :=
  let d := dist (centroidD m.exits) (centroidD s.exits)
  (codesIntersect m.codes s.mrt_codes && decide (d < thr))
    || (decide (m.official_name = s.official_name) && decide (d < 300))
    || (decide (get_base_name m.official_name = get_base_name s.official_name)
          && decide (d < thr))

/-- The exit-merging loop body shared by both branches of `consolidate`:
walk the incoming exits, and for each whose normalized code is not yet in
`seen`, emit a copy carrying the normalized code (`new_ex.copy()` followed by
the `exit_code` assignment) and extend `seen`. -/
def addNewExits (seen : List Str) : List ExitPoint → List ExitPoint
  | [] => []
  | e :: rest =>
    let n := normalize_exit_code e.exit_code
    if seen.contains n then addNewExits seen rest
    else { e with exit_code := n } :: addNewExits (n :: seen) rest

/-- The merge branch of `consolidate`: codes become
`sorted(list(set(station_codes) | set(match_codes)))` and the deduplicated
normalized new exits are appended after the existing ones. -/
def mergeStation (m : RawMatch) (s : Station) : Station :=
  { official_name := s.official_name
    mrt_codes := sortUnique (s.mrt_codes ++ m.codes)
    exits := s.exits ++ addNewExits (s.exits.map fun e => normalize_exit_code e.exit_code) m.exits }

/-- The no-match branch of `consolidate`: a fresh entry keeping the match's
name and code list, with the match's exits normalized and deduplicated. -/
def newEntry (m : RawMatch) : Station :=
  { official_name := m.official_name
    mrt_codes := m.codes
    exits := addNewExits [] m.exits }

/-- The inner `for station in consolidated` scan: merge `m` into the first
entry satisfying `criterion` (returning the updated list), or report that no
entry qualifies. -/
def mergeInto (dist : Pt → Pt → ℚ) (thr : ℚ) (m : RawMatch) :
    List Station → Option (List Station)
  | [] => none
  | s :: rest =>
    if criterion dist thr m s then some (mergeStation m s :: rest)
    else (mergeInto dist thr m rest).map fun rest1 => s :: rest1

/-- The outer `for match in raw_matches` loop of `consolidate`, carrying the
`consolidated` accumulator. -/
def consolidateLoop (dist : Pt → Pt → ℚ) (thr : ℚ) :
    List RawMatch → List Station → List Station
  | [], acc => acc
  | m :: rest, acc =>
    match mergeInto dist thr m acc with
    | some acc1 => consolidateLoop dist thr rest acc1
    | none => consolidateLoop dist thr rest (acc ++ [newEntry m])

/-- `Consolidator.consolidate` with spatial threshold `thr` (the constructor
default is `800`) and distance collaborator `dist` (`haversine_distance` in
the source). -/
def consolidate (dist : Pt → Pt → ℚ) (thr : ℚ) (raw_matches : List RawMatch) :
    List Station :=
  (consolidateLoop dist thr raw_matches []).map fun s =>
    { s with exits := sortExits s.exits }

/-! ## Matching engine (`src/src/processors/matching_engine.py`) -/

/-- Python `\w` (ASCII part): letters, digits, underscore. -/
def wordChar (c : Char) : Bool := c.isAlphanum || c = '_'

/-- Is there a word boundary between the end of a token and the rest `r` of
the input (the previous character being a word character)? -/
def boundaryAfter (r : Str) : Bool :=
  match r.head? with
  | none => true
  | some c => !wordChar c

/-- Try the alternation `(?:p₁|p₂|...)\d*\b` at the current position: the
alternatives are tried in list order; a successful alternative consumes the
prefix and the maximal digit run and requires a word boundary after it (a
shorter, backtracked digit run can never restore the boundary, so the
alternative fails outright and the next one is tried; a zero-length prefix —
which the source never configures — is skipped).  Returns the matched token
and the rest of the input. -/
def tryCode (s : Str) : List Str → Option (Str × Str)
  | [] => none
  | p :: ps =>
    if p ≠ [] ∧ p.isPrefixOf s ∧
        boundaryAfter ((s.drop p.length).drop
          ((s.drop p.length).takeWhile Char.isDigit).length) then
      some (p ++ (s.drop p.length).takeWhile Char.isDigit,
        (s.drop p.length).drop ((s.drop p.length).takeWhile Char.isDigit).length)
    else tryCode s ps

/-- Fueled scanner for `re.findall(r'\b(?:p₁|p₂|...)\d*\b', text)`:
left-to-right, non-overlapping; `prevWord` records whether the previous
character was a word character (`\b` before the token requires it not to
be). -/
def findCodesF (prefixes : List Str) : Nat → Bool → Str → List Str
  | _, _, [] => []
  | 0, _, _ => []
  | fuel + 1, prevWord, c :: rest =>
    if prevWord then findCodesF prefixes fuel (wordChar c) rest
    else
      match tryCode (c :: rest) prefixes with
      | some (tok, r) =>
        tok :: findCodesF prefixes fuel (match tok.getLast? with
          | some x => wordChar x
          | none => true) r
      | none => findCodesF prefixes fuel (wordChar c) rest

/-- `MatchingEngine._extract_codes`: upper-case the text, collect all
regex matches, and keep them as a set (embedded as the sorted list of the
distinct tokens found). -/
def extract_codes (prefixes : List Str) (text : Str) : List Str :=
  sortUnique (findCodesF prefixes (upperS text).length false (upperS text))

/-- The fallback prefix list hard-coded in `MatchingEngine.__init__` (used
when the configuration provides no `station_code_prefixes`). -/
def defaultPrefixes : List Str :=
  ["NS".data, "EW".data, "NE".data, "CC".data, "DT".data, "TE".data, "CG".data,
   "CE".data, "BP".data, "SW".data, "SE".data, "PW".data, "PE".data,
   "STC".data, "PTC".data, "CR".data, "JS".data, "JW".data, "JE".data]

/-- Scan for the first `)` on the current line; `re` needs it to complete a
`\(.*?\)` match (`.` does not cross a newline). -/
def afterClose : Str → Option Str
  | [] => none
  | c :: rest => if c = ')' then some rest else if c = '\n' then none else afterClose rest

/-- Fueled worker for `re.sub(r'\(.*?\)', '', s)`: at each `(`, lazily match
up to the first `)` on the same line and drop that span, else keep the
character. -/
def removeParensF : Nat → Str → Str
  | _, [] => []
  | 0, s => s
  | fuel + 1, c :: rest =>
    if c = '(' then
      match afterClose rest with
      | some r => removeParensF fuel r
      | none => c :: removeParensF fuel rest
    else c :: removeParensF fuel rest

/-- `re.sub(r'\(.*?\)', '', s)`. -/
def removeParens (s : Str) : Str := removeParensF s.length s

/-- Does `\s+EXIT\s+[A-Z0-9]+` match at the head of `s`?  If so, return the
rest of `s` after the (leftmost-longest) match. -/
def matchExitAt (s : Str) : Option Str :=
  let w1 := s.takeWhile Char.isWhitespace
  if w1 = [] then none
  else
    let r1 := s.drop w1.length
    if "EXIT".data.isPrefixOf r1 then
      let r2 := r1.drop 4
      let w2 := r2.takeWhile Char.isWhitespace
      if w2 = [] then none
      else
        let r3 := r2.drop w2.length
        let tok := r3.takeWhile fun c => ('A' ≤ c ∧ c ≤ 'Z') ∨ c.isDigit
        if tok = [] then none else some (r3.drop tok.length)
    else none

/-- Fueled worker for `re.sub(r'\s+EXIT\s+[A-Z0-9]+', '', s)`. -/
def removeExitTokensF : Nat → Str → Str
  | _, [] => []
  | 0, s => s
  | fuel + 1, c :: rest =>
    match matchExitAt (c :: rest) with
    | some r => removeExitTokensF fuel r
    | none => c :: removeExitTokensF fuel rest

/-- `re.sub(r'\s+EXIT\s+[A-Z0-9]+', '', s)`. -/
def removeExitTokens (s : Str) : Str := removeExitTokensF s.length s

/-- One search candidate as consumed by `match_station`.  The source
subscripts the fields directly (`res['BUILDING']`, `res['LATITUDE']`,
`res['LONGITUDE']`); a `none` field models the key being absent from the
OneMap response (the `float(...)` parse of the coordinate strings is folded
into the rational value). -/
structure SearchHit where
  BUILDING : Option Str
  LATITUDE : Option ℚ
  LONGITUDE : Option ℚ
deriving DecidableEq, Inhabited

/-- All three fields a candidate needs are present. -/
def SearchHit.wellFormed (r : SearchHit) : Bool :=
  r.BUILDING.isSome && r.LATITUDE.isSome && r.LONGITUDE.isSome

/-- One record of the `get_nearby_mrt` fallback response. -/
structure NearbyHit where
  MRT_CA_CODE : Str
  MRT_STATION_NAME : Str
deriving DecidableEq, Inhabited

/-- The matcher's result record `{official_name, codes, centroid}`. -/
structure MatchResult where
  official_name : Str
  codes : List Str
  centroid : Pt
deriving DecidableEq, Inhabited

/-- The running state of `match_station`'s candidate loop:
`(all_found_codes, best_name, highest_score)`.  The code set is carried as
the list of tokens accumulated so far (the final `sorted(list(set(...)))`
canonicalizes it); `highest_score` starts at `-1`. -/
abbrev LoopState := List Str × Option Str × ℚ

/-- One iteration of `for res in results`.  A missing field raises a
`KeyError` (modelled as `Except.error ()`); otherwise, when the candidate is
within `epsilon` of the group centroid, its codes are accumulated and, if its
fuzzy score beats the best so far, its cleaned name becomes the provisional
best name. -/
def loopStep (prefixes : List Str) (score : Str → Str → ℚ) (dist : Pt → Pt → ℚ)
    (epsilon : ℚ) (datagov_name : Str) (centroid : Pt) (st : LoopState)
    (res : SearchHit) : Except Unit LoopState :=
  match res.BUILDING, res.LATITUDE, res.LONGITUDE with
  | some b, some la, some lo =>
    let name := upperS b
    let d := dist centroid ⟨la, lo⟩
    if d ≤ epsilon then
      let codes := st.1 ++ extract_codes prefixes name
      let sc := score datagov_name name
      if sc > st.2.2 then
        let clean := trimS (removeExitTokens (trimS (removeParens name)))
        .ok (codes, some clean, sc)
      else .ok (codes, st.2.1, st.2.2)
    else .ok st
  | _, _, _ => .error ()

/-- The nearest-station fallback of `match_station`: when the loop
accumulated no code, take the first nearby record's code tokens and its
upper-cased name (overwriting any provisional name). -/
def fallback (prefixes : List Str) (nearby : List NearbyHit) (st : LoopState) :
    List Str × Option Str :=
  if st.1 = [] then
    match nearby with
    | [] => (st.1, st.2.1)
    | nb :: _ => (st.1 ++ extract_codes prefixes nb.MRT_CA_CODE, some (upperS nb.MRT_STATION_NAME))
  else (st.1, st.2.1)

/-- The result-name selection
`best_name if best_name else datagov_name.upper()`: Python truthiness
treats both `None` and the *empty string* as falsy, so a provisional best
name that cleaned down to `""` also falls back to the upper-cased source
name. -/
def chooseName (best : Option Str) (datagov_name : Str) : Str :=
  match best with
  | some n => if n = [] then upperS datagov_name else n
  | none => upperS datagov_name

/-- `MatchingEngine.match_station`.  The search and nearest-station
collaborators are modelled by their responses `results` / `nearby`; `score`
is the `rapidfuzz.fuzz.WRatio` collaborator and `dist` the haversine
collaborator.  `Except.error ()` is an uncaught `KeyError`. -/
def match_station (prefixes : List Str) (score : Str → Str → ℚ)
    (dist : Pt → Pt → ℚ) (epsilon : ℚ) (results : List SearchHit)
    (nearby : List NearbyHit) (datagov_name : Str) (exits : List ExitPoint) :
    Except Unit (Option MatchResult) :=
  (results.foldlM (loopStep prefixes score dist epsilon datagov_name (centroidD exits))
      ([], none, -1)).map fun st =>
    if (fallback prefixes nearby st).1 = [] then none
    else some
      { official_name := chooseName (fallback prefixes nearby st).2 datagov_name
        codes := sortUnique (fallback prefixes nearby st).1
        centroid := centroidD exits }

/-! ## Reference-level consolidator

Python dicts are heap objects: the exit records handed to `consolidate`
could in principle be mutated through the references the algorithm holds.
To state the frame claim, the embedding below makes the heap explicit: a
`Store` of exit records addressed by allocation index.  The source reads
input records, and writes only to records it freshly allocates
(`new_ex.copy()` / `ex.copy()` followed by the `exit_code` assignment, fused
here into allocation of the updated copy); station dicts and the merged code
lists are likewise freshly built, and the input match dicts are only read.
So every store operation of the algorithm is an allocation, never an update
of an existing address. -/

/-- A reference into the store of exit records. -/
abbrev Ref := Nat

/-- The heap of exit records; an address is an index. -/
abbrev Store := List ExitPoint

/-- Read the record at address `r`. -/
def readE (st : Store) (r : Ref) : ExitPoint := st.getD r default

/-- Allocate a fresh record, returning the extended store and its address. -/
def allocE (st : Store) (e : ExitPoint) : Store × Ref := (st ++ [e], st.length)

/-- A consolidator input whose exits live in the store. -/
structure RawMatchR where
  official_name : Str
  codes : List Str
  exits : List Ref
deriving DecidableEq, Inhabited

/-- A consolidated station whose exits live in the store. -/
structure StationR where
  official_name : Str
  mrt_codes : List Str
  exits : List Ref
deriving DecidableEq, Inhabited

/-- Store-level centroid of a list of exit references. -/
def centroidR (st : Store) (refs : List Ref) : Pt :=
  centroidD (refs.map (readE st))

/-- Store-level variant of `addNewExits`: each admitted exit is a freshly
allocated copy carrying the normalized code (`new_ex.copy()` followed by the
`exit_code` assignment; the allocation happens at the current end of the
store, as `allocE` records). -/
def addNewExitsR : Store → List Str → List Ref → List Ref × Store
  | st, _, [] => ([], st)
  | st, seen, r :: rest =>
    if seen.contains (normalize_exit_code (readE st r).exit_code) then
      addNewExitsR st seen rest
    else
      (st.length ::
        (addNewExitsR (st ++ [{ readE st r with
            exit_code := normalize_exit_code (readE st r).exit_code }])
          (normalize_exit_code (readE st r).exit_code :: seen) rest).1,
        (addNewExitsR (st ++ [{ readE st r with
            exit_code := normalize_exit_code (readE st r).exit_code }])
          (normalize_exit_code (readE st r).exit_code :: seen) rest).2)

/-- Store-level merge branch. -/
def mergeStationR (st : Store) (m : RawMatchR) (s : StationR) : StationR × Store :=
  (⟨s.official_name, sortUnique (s.mrt_codes ++ m.codes),
      s.exits ++ (addNewExitsR st (s.exits.map fun r =>
        normalize_exit_code (readE st r).exit_code) m.exits).1⟩,
    (addNewExitsR st (s.exits.map fun r =>
      normalize_exit_code (readE st r).exit_code) m.exits).2)

/-- Store-level fresh-entry branch. -/
def newEntryR (st : Store) (m : RawMatchR) : StationR × Store :=
  (⟨m.official_name, m.codes, (addNewExitsR st [] m.exits).1⟩,
    (addNewExitsR st [] m.exits).2)

/-- Store-level merge test (same three criteria as `criterion`). -/
def criterionR (dist : Pt → Pt → ℚ) (thr : ℚ) (st : Store) (m : RawMatchR)
    (s : StationR) : Bool :=
  let d := dist (centroidR st m.exits) (centroidR st s.exits)
  (codesIntersect m.codes s.mrt_codes && decide (d < thr))
    || (decide (m.official_name = s.official_name) && decide (d < 300))
    || (decide (get_base_name m.official_name = get_base_name s.official_name)
          && decide (d < thr))

/-- Store-level inner scan. -/
def mergeIntoR (dist : Pt → Pt → ℚ) (thr : ℚ) (m : RawMatchR) :
    Store → List StationR → Option (List StationR × Store)
  | _, [] => none
  | st, s :: rest =>
    if criterionR dist thr st m s then
      some ((mergeStationR st m s).1 :: rest, (mergeStationR st m s).2)
    else (mergeIntoR dist thr m st rest).map fun p => (s :: p.1, p.2)

/-- Store-level outer loop. -/
def consolidateLoopR (dist : Pt → Pt → ℚ) (thr : ℚ) :
    List RawMatchR → Store → List StationR → List StationR × Store
  | [], st, acc => (acc, st)
  | m :: rest, st, acc =>
    match mergeIntoR dist thr m st acc with
    | some p => consolidateLoopR dist thr rest p.2 p.1
    | none => consolidateLoopR dist thr rest (newEntryR st m).2 (acc ++ [(newEntryR st m).1])

/-- Store-level `Consolidator.consolidate`: the final per-station sort
rearranges references (Python's `sorted` builds a new list) and does not
touch the store. -/
def consolidateR (dist : Pt → Pt → ℚ) (thr : ℚ) (raw_matches : List RawMatchR)
    (st : Store) : List StationR × Store :=
  ((consolidateLoopR dist thr raw_matches st []).1.map fun s =>
    { s with exits := sortStable (fun a b =>
        exit_le (readE (consolidateLoopR dist thr raw_matches st []).2 a)
          (readE (consolidateLoopR dist thr raw_matches st []).2 b)) s.exits },
    (consolidateLoopR dist thr raw_matches st []).2)

/-! ## Claim-side definitions and concrete fixtures

Definitions in this block are written from the wording of the spec/claims
(they are compared against the source-level definitions above), plus a few
concrete collaborator instantiations used by counterexamples and witnesses. -/

/-- The distance collaborator used by all concrete inputs below, which place
every exit at one coordinate: the source's `haversine_distance(p, p)` is
exactly `0.0` (the formula reduces to `2·R·atan2(0, 1)`), so the constant
zero function agrees with it there. -/
def distZero : Pt → Pt → ℚ := fun _ _ => 0

/-- A constant fuzzy-score collaborator (any value in `WRatio`'s range
`[0, 100]` behaves identically for the properties below). -/
def scoreConst : Str → Str → ℚ := fun _ _ => 50

/-- A well-formed search candidate for the Yishun scenario of spec §8. -/
def sampleHitOk : SearchHit :=
  ⟨some "Yishun MRT Station (NS13)".data, some 1, some 103⟩

/-- A malformed search candidate: the `LATITUDE` key is absent. -/
def sampleHitBad : SearchHit := ⟨some "x".data, none, some 103⟩

/-- The exit identifier on which the natural sort compares, as the source
computes it (`exit_code.replace("Exit ", "").strip()`); claim C9's amended
wording. -/
def identifierOf (e : ExitPoint) : Str := trimS (replaceAll "Exit ".data [] e.exit_code)

/-- The natural exit order of claim C9 (amended): a non-numeric identifier
precedes every numeric one; two non-numeric identifiers compare
alphabetically case-insensitively, two numeric ones by value. -/
def naturalLeB (a b : ExitPoint) : Bool :=
  (!(isDigitS (identifierOf a)) && isDigitS (identifierOf b))
    || (isDigitS (identifierOf a) && isDigitS (identifierOf b)
          && decide (digitsToNat (identifierOf a) ≤ digitsToNat (identifierOf b)))
    || (!(isDigitS (identifierOf a)) && !(isDigitS (identifierOf b))
          && (strLt (upperS (identifierOf a)) (upperS (identifierOf b))
                || decide (upperS (identifierOf a) = upperS (identifierOf b))))

/-- The exit identifier as claim C9 literally states it: the exit code with
the `"Exit "` prefix removed (once, as a prefix). -/
def claimIdentifier (e : ExitPoint) : Str :=
  if "Exit ".data.isPrefixOf e.exit_code then e.exit_code.drop 5 else e.exit_code

/-- The natural exit order of claim C9 as stated, over `claimIdentifier`. -/
def claimNaturalLeB (a b : ExitPoint) : Bool :=
  (!(isDigitS (claimIdentifier a)) && isDigitS (claimIdentifier b))
    || (isDigitS (claimIdentifier a) && isDigitS (claimIdentifier b)
          && decide (digitsToNat (claimIdentifier a) ≤ digitsToNat (claimIdentifier b)))
    || (!(isDigitS (claimIdentifier a)) && !(isDigitS (claimIdentifier b))
          && (strLt (upperS (claimIdentifier a)) (upperS (claimIdentifier b))
                || decide (upperS (claimIdentifier a) = upperS (claimIdentifier b))))

/-- Remove `suf` from the end of `s` — "stripping the suffix" in the literal
sense of claims C2/C9's wording. -/
def stripSuffixOne (suf s : Str) : Str :=
  if suf.isSuffixOf s then s.take (s.length - suf.length) else s

/-- The base name as claim C2 literally states it: strip the four suffix
tokens (in that order) from the upper-cased name, each only when the name
ends with it. -/
def claimBaseName (name : Str) : Str :=
  stripSuffixOne " STATION".data
    (stripSuffixOne " LRT STATION".data
      (stripSuffixOne " MRT STATION".data
        (stripSuffixOne " MRT/LRT STATION".data (upperS name))))

/-- The merge test as the (amended) claim C2 states it: criterion 1, code
overlap and distance below the spatial threshold; criterion 2, identical
official name and distance below 300 m; criterion 3, equal base names and
distance below the threshold. -/
def criterionSpec (dist : Pt → Pt → ℚ) (thr : ℚ) (m : RawMatch) (s : Station) : Bool :=
  (codesIntersect m.codes s.mrt_codes
      && decide (dist (centroidD m.exits) (centroidD s.exits) < thr))
    || (decide (m.official_name = s.official_name)
          && decide (dist (centroidD m.exits) (centroidD s.exits) < 300))
    || (decide (get_base_name m.official_name = get_base_name s.official_name)
          && decide (dist (centroidD m.exits) (centroidD s.exits) < thr))

/-- One step of the consolidation pass as claim C2 describes it: merge the
incoming match into the entry at the first index satisfying the merge test,
or append a fresh entry when no index qualifies. -/
def specStep (dist : Pt → Pt → ℚ) (thr : ℚ) (acc : List Station) (m : RawMatch) :
    List Station :=
  match List.findIdx? (fun s => criterionSpec dist thr m s) acc with
  | some i => List.modify (mergeStation m) i acc
  | none => acc ++ [newEntry m]

/-- The consolidation algorithm as claim C2 describes it: fold the matches
in input order through `specStep`, then sort every station's exits. -/
def specConsolidate (dist : Pt → Pt → ℚ) (thr : ℚ) (ms : List RawMatch) :
    List Station :=
  (ms.foldl (specStep dist thr) []).map fun s => { s with exits := sortExits s.exits }

/-- Equality of embedded call results (`Except` is not `DecidableEq` out of
the box). -/
instance {ε α : Type} [DecidableEq ε] [DecidableEq α] : DecidableEq (Except ε α) :=
  fun a b =>
    match a, b with
    | .error e, .error f => decidable_of_iff (e = f) (by simp)
    | .ok x, .ok y => decidable_of_iff (x = y) (by simp)
    | .error _, .ok _ => isFalse (by simp)
    | .ok _, .error _ => isFalse (by simp)

/-! ## Helper lemmas: string order -/

theorem strLt_cons_iff {a b : Char} {as bs : Str} :
    strLt (a :: as) (b :: bs) = true ↔ a < b ∨ (a = b ∧ strLt as bs = true) := by
  simp only [strLt]
  split_ifs with h1 h2
  · simp [h1]
  · simp only [false_iff]
    rintro (h | ⟨rfl, -⟩)
    · exact h1 h
    · exact absurd h2 (lt_irrefl _)
  · have hab : a = b := le_antisymm (not_lt.mp h2) (not_lt.mp h1)
    subst hab
    simp [lt_irrefl]

theorem strLt_irrefl (a : Str) : strLt a a = false := by
  induction a with
  | nil => rfl
  | cons c cs ih => simp [strLt, ih]

theorem strLt_trans : ∀ (a b c : Str),
    strLt a b = true → strLt b c = true → strLt a c = true := by
  intro a
  induction a with
  | nil =>
    intro b c h1 h2
    cases c with
    | nil => cases b <;> simp [strLt] at h1 h2
    | cons z zs => simp [strLt]
  | cons x xs ih =>
    intro b c h1 h2
    cases b with
    | nil => simp [strLt] at h1
    | cons y ys =>
      cases c with
      | nil => simp [strLt] at h2
      | cons z zs =>
        rw [strLt_cons_iff] at h1 h2 ⊢
        rcases h1 with h1 | ⟨rfl, h1⟩
        · rcases h2 with h2 | ⟨rfl, h2⟩
          · exact Or.inl (lt_trans h1 h2)
          · exact Or.inl h1
        · rcases h2 with h2 | ⟨rfl, h2⟩
          · exact Or.inl h2
          · exact Or.inr ⟨rfl, ih ys zs h1 h2⟩

theorem bool_eq_false {b : Bool} (h : ¬ b = true) : b = false := by
  cases b
  · rfl
  · exact absurd rfl h

theorem strLt_eq_of_not_lt : ∀ (a b : Str),
    strLt a b = false → strLt b a = false → a = b := by
  intro a
  induction a with
  | nil =>
    intro b h1 _
    cases b with
    | nil => rfl
    | cons z zs => simp [strLt] at h1
  | cons x xs ih =>
    intro b h1 h2
    cases b with
    | nil => simp [strLt] at h2
    | cons y ys =>
      have h1 : ¬ (x < y ∨ (x = y ∧ strLt xs ys = true)) := by
        rw [← strLt_cons_iff]
        simp [h1]
      have h2 : ¬ (y < x ∨ (y = x ∧ strLt ys xs = true)) := by
        rw [← strLt_cons_iff]
        simp [h2]
      push_neg at h1 h2
      have hxy : x = y := le_antisymm h2.1 h1.1
      subst hxy
      have hf1 : strLt xs ys = false := by
        cases hc : strLt xs ys
        · rfl
        · exact absurd hc (h1.2 rfl)
      have hf2 : strLt ys xs = false := by
        cases hc : strLt ys xs
        · rfl
        · exact absurd hc (h2.2 rfl)
      rw [ih ys hf1 hf2]

/-! ## Helper lemmas: `sortUnique` -/

theorem mem_insertStr {a x : Str} : ∀ {l : List Str},
    a ∈ insertStr x l ↔ a = x ∨ a ∈ l := by
  intro l
  induction l with
  | nil => simp [insertStr]
  | cons y ys ih =>
    simp only [insertStr]
    split_ifs with h1 h2
    · simp
    · subst h2; simp only [List.mem_cons]; tauto
    · simp only [List.mem_cons, ih]; tauto

theorem insertStr_ne_nil {x : Str} : ∀ {l : List Str}, insertStr x l ≠ [] := by
  intro l
  cases l with
  | nil => simp [insertStr]
  | cons y ys =>
    simp only [insertStr]
    split_ifs <;> simp

theorem pairwise_insertStr {x : Str} : ∀ {l : List Str},
    l.Pairwise (fun a b => strLt a b = true) →
    (insertStr x l).Pairwise (fun a b => strLt a b = true) := by
  intro l
  induction l with
  | nil => simp [insertStr]
  | cons y ys ih =>
    intro hp
    rw [List.pairwise_cons] at hp
    simp only [insertStr]
    split_ifs with h1 h2
    · rw [List.pairwise_cons]
      refine ⟨?_, List.pairwise_cons.mpr hp⟩
      intro b hb
      rcases List.mem_cons.mp hb with rfl | hb
      · exact h1
      · exact strLt_trans _ _ _ h1 (hp.1 b hb)
    · exact List.pairwise_cons.mpr hp
    · rw [List.pairwise_cons]
      refine ⟨?_, ih hp.2⟩
      intro b hb
      rcases mem_insertStr.mp hb with rfl | hb
      · cases hc : strLt y b
        · exact absurd (strLt_eq_of_not_lt _ _ hc (bool_eq_false h1)).symm h2
        · rfl
      · exact hp.1 b hb

theorem mem_foldl_insertStr {a : Str} : ∀ (l acc : List Str),
    a ∈ l.foldl (fun acc x => insertStr x acc) acc ↔ a ∈ acc ∨ a ∈ l := by
  intro l
  induction l with
  | nil => simp
  | cons x xs ih =>
    intro acc
    simp only [List.foldl_cons, ih, mem_insertStr, List.mem_cons]
    tauto

theorem mem_sortUnique {a : Str} {l : List Str} : a ∈ sortUnique l ↔ a ∈ l := by
  unfold sortUnique
  rw [mem_foldl_insertStr]
  simp

theorem pairwise_sortUnique (l : List Str) :
    (sortUnique l).Pairwise (fun a b => strLt a b = true) := by
  unfold sortUnique
  have h : ∀ (l acc : List Str), acc.Pairwise (fun a b => strLt a b = true) →
      (l.foldl (fun acc x => insertStr x acc) acc).Pairwise (fun a b => strLt a b = true) := by
    intro l
    induction l with
    | nil => intro acc h; exact h
    | cons x xs ih => intro acc hacc; exact ih _ (pairwise_insertStr hacc)
  exact h l [] (by simp)

theorem sortUnique_ne_nil {l : List Str} (h : l ≠ []) : sortUnique l ≠ [] := by
  unfold sortUnique
  have key : ∀ (l acc : List Str), acc ≠ [] ∨ l ≠ [] →
      l.foldl (fun acc x => insertStr x acc) acc ≠ [] := by
    intro l
    induction l with
    | nil =>
      intro acc h
      rcases h with h | h
      · exact h
      · exact absurd rfl h
    | cons x xs ih =>
      intro acc _
      exact ih _ (Or.inl insertStr_ne_nil)
  exact key l [] (Or.inr h)

/-! ## Helper lemmas: stable sort -/

theorem mem_insertLe {α : Type} {le : α → α → Bool} {a x : α} : ∀ {l : List α},
    a ∈ insertLe le x l ↔ a = x ∨ a ∈ l := by
  intro l
  induction l with
  | nil => simp [insertLe]
  | cons y ys ih =>
    simp only [insertLe]
    split_ifs with h1
    · simp only [List.mem_cons, ih]; tauto
    · simp [List.mem_cons]

theorem pairwise_insertLe {α : Type} {le : α → α → Bool}
    (htrans : ∀ a b c, le a b = true → le b c = true → le a c = true)
    (htotal : ∀ a b, le a b = true ∨ le b a = true) (x : α) :
    ∀ {l : List α}, l.Pairwise (fun a b => le a b = true) →
      (insertLe le x l).Pairwise (fun a b => le a b = true) := by
  intro l
  induction l with
  | nil => simp [insertLe]
  | cons y ys ih =>
    intro hp
    rw [List.pairwise_cons] at hp
    simp only [insertLe]
    split_ifs with h1
    · rw [List.pairwise_cons]
      refine ⟨?_, ih hp.2⟩
      intro b hb
      rcases mem_insertLe.mp hb with rfl | hb
      · exact h1
      · exact hp.1 b hb
    · have hxy : le x y = true := by
        rcases htotal y x with h | h
        · exact absurd h h1
        · exact h
      rw [List.pairwise_cons]
      refine ⟨?_, List.pairwise_cons.mpr hp⟩
      intro b hb
      rcases List.mem_cons.mp hb with rfl | hb
      · exact hxy
      · exact htrans _ _ _ hxy (hp.1 b hb)

theorem pairwise_sortStable {α : Type} {le : α → α → Bool}
    (htrans : ∀ a b c, le a b = true → le b c = true → le a c = true)
    (htotal : ∀ a b, le a b = true ∨ le b a = true) (l : List α) :
    (sortStable le l).Pairwise (fun a b => le a b = true) := by
  unfold sortStable
  have h : ∀ (l acc : List α), acc.Pairwise (fun a b => le a b = true) →
      (l.foldl (fun acc x => insertLe le x acc) acc).Pairwise (fun a b => le a b = true) := by
    intro l
    induction l with
    | nil => intro acc h; exact h
    | cons x xs ih => intro acc hacc; exact ih _ (pairwise_insertLe htrans htotal x hacc)
  exact h l [] (by simp)

/-! ## Helper lemmas: trimming and exit-code normalization -/

theorem trimLeftS_cons_of_not_ws {c : Char} (h : c.isWhitespace = false) (t : Str) :
    trimLeftS (c :: t) = c :: t := by
  simp [trimLeftS, List.dropWhile_cons, h]

theorem head_not_ws_of_trimLeftS_eq {c : Char} {t : Str}
    (h : trimLeftS (c :: t) = c :: t) : c.isWhitespace = false := by
  cases hc : c.isWhitespace
  · rfl
  · exfalso
    rw [trimLeftS, List.dropWhile_cons, hc] at h
    simp only [if_true] at h
    have h1 := congrArg List.length h
    have h2 := (List.dropWhile_sublist (l := t) Char.isWhitespace).length_le
    simp only [List.length_cons] at h1
    omega

theorem trimLeftS_cons (c : Char) (t : Str) :
    trimLeftS (c :: t) = if c.isWhitespace then trimLeftS t else c :: t := by
  simp [trimLeftS, List.dropWhile_cons]

theorem trimLeftS_idem (s : Str) : trimLeftS (trimLeftS s) = trimLeftS s := by
  induction s with
  | nil => rfl
  | cons c t ih =>
    cases hc : c.isWhitespace
    · rw [trimLeftS_cons]
      simp only [hc, Bool.false_eq_true, if_false]
      exact trimLeftS_cons_of_not_ws hc t
    · rw [trimLeftS_cons]
      simp only [hc, if_true]
      exact ih

theorem trimRightS_idem (s : Str) : trimRightS (trimRightS s) = trimRightS s := by
  unfold trimRightS
  rw [List.reverse_reverse, trimLeftS_idem]

theorem trimRightS_append_eq (u : Str) : ∃ t, u = trimRightS u ++ t := by
  refine ⟨(u.reverse.takeWhile Char.isWhitespace).reverse, ?_⟩
  unfold trimRightS trimLeftS
  conv_lhs =>
    rw [← u.reverse_reverse, ← List.takeWhile_append_dropWhile Char.isWhitespace u.reverse]
  rw [List.reverse_append]

theorem trimLeftS_trimS (s : Str) : trimLeftS (trimS s) = trimS s := by
  unfold trimS
  rcases trimRightS_append_eq (trimLeftS s) with ⟨t, ht⟩
  cases hu : trimRightS (trimLeftS s) with
  | nil => rfl
  | cons c cs =>
    have hhead : trimLeftS s = c :: (cs ++ t) := by
      rw [ht, hu]
      simp
    have hne : c.isWhitespace = false := by
      have hself := trimLeftS_idem s
      rw [hhead] at hself
      exact head_not_ws_of_trimLeftS_eq hself
    exact trimLeftS_cons_of_not_ws hne _

theorem trimRightS_trimS (s : Str) : trimRightS (trimS s) = trimS s :=
  trimRightS_idem _

theorem trimLeftS_eq_self_iff_head {v : Str} (hv : trimLeftS v = v) (hne : v ≠ []) :
    ∃ c t, v = c :: t ∧ c.isWhitespace = false := by
  cases v with
  | nil => exact absurd rfl hne
  | cons c t => exact ⟨c, t, rfl, head_not_ws_of_trimLeftS_eq hv⟩

theorem trimRightS_append {v : Str} (u : Str) (hv : trimRightS v = v) (hne : v ≠ []) :
    trimRightS (u ++ v) = u ++ v := by
  have hv2 : trimLeftS v.reverse = v.reverse := by
    have h := congrArg List.reverse hv
    unfold trimRightS at h
    rwa [List.reverse_reverse] at h
  have hner : v.reverse ≠ [] := by
    intro h
    exact hne (by simpa using congrArg List.reverse h)
  rcases trimLeftS_eq_self_iff_head hv2 hner with ⟨c, t, hct, hcw⟩
  unfold trimRightS
  rw [List.reverse_append, hct, List.cons_append, trimLeftS_cons_of_not_ws hcw,
    ← List.cons_append, ← hct, ← List.reverse_append, List.reverse_reverse]

theorem mem_of_mem_trimLeftS {c : Char} {s : Str} (h : c ∈ trimLeftS s) : c ∈ s :=
  (List.dropWhile_sublist Char.isWhitespace).subset h

theorem mem_of_mem_trimRightS {c : Char} {s : Str} (h : c ∈ trimRightS s) : c ∈ s := by
  unfold trimRightS at h
  rw [List.mem_reverse] at h
  have := mem_of_mem_trimLeftS h
  rwa [List.mem_reverse] at this

theorem mem_of_mem_trimS {c : Char} {s : Str} (h : c ∈ trimS s) : c ∈ s :=
  mem_of_mem_trimLeftS (mem_of_mem_trimRightS h)

theorem mem_of_mem_takeWhile {p : Char → Bool} {c : Char} {s : Str}
    (h : c ∈ s.takeWhile p) : c ∈ s := by
  have hs : s.takeWhile p ++ s.dropWhile p = s := List.takeWhile_append_dropWhile p s
  rw [← hs]
  exact List.mem_append_left _ h

theorem takeWhile_ne_newline {v : Str} (h : '\n' ∉ v) :
    (v.takeWhile fun c => c ≠ '\n') = v := by
  induction v with
  | nil => rfl
  | cons c cs ih =>
    have hc : c ≠ '\n' := fun hcc => h (hcc ▸ List.mem_cons_self c cs)
    have ih2 := ih fun hm => h (List.mem_cons_of_mem c hm)
    rw [List.takeWhile_cons, if_pos (by simp [hc]), ih2]

/-- Every output of `_normalize_exit_code` has the shape
`"Exit " ++ v` with `v` trimmed and drawn from the input's characters. -/
theorem normalize_shape (code : Str) :
    ∃ v, normalize_exit_code code = "Exit ".data ++ v ∧
      trimLeftS v = v ∧ trimRightS v = v ∧ ∀ c, c ∈ v → c ∈ code := by
  unfold normalize_exit_code
  split_ifs with h1 h2
  · exact ⟨_, rfl, trimLeftS_trimS _, trimRightS_trimS _, fun c hc =>
      mem_of_mem_trimS ((List.drop_subset _ _) (mem_of_mem_trimS hc))⟩
  · exact ⟨_, rfl, trimLeftS_trimS _, trimRightS_trimS _, fun c hc =>
      mem_of_mem_trimS (mem_of_mem_trimS hc)⟩
  · exact ⟨_, rfl, trimLeftS_trimS _, trimRightS_trimS _, fun c hc =>
      mem_of_mem_trimS ((List.drop_subset _ _) (mem_of_mem_trimLeftS
        (mem_of_mem_takeWhile (mem_of_mem_trimS hc))))⟩

theorem trimS_exit_append {v : Str} (hR : trimRightS v = v) (hne : v ≠ []) :
    trimS ("Exit ".data ++ v) = "Exit ".data ++ v := by
  unfold trimS
  rw [show ("Exit ".data ++ v) = 'E' :: ("xit ".data ++ v) from rfl,
    trimLeftS_cons_of_not_ws (by decide),
    show ('E' :: ("xit ".data ++ v)) = "Exit ".data ++ v from rfl]
  exact trimRightS_append _ hR hne

/-- Applying `_normalize_exit_code` to `"Exit " ++ v` with `v` trimmed and
newline-free gives it back unchanged. -/
theorem normalize_exit_append {v : Str} (hL : trimLeftS v = v) (hR : trimRightS v = v)
    (hn : '\n' ∉ v) : normalize_exit_code ("Exit ".data ++ v) = "Exit ".data ++ v := by
  rcases eq_or_ne v [] with rfl | hne
  · simp only [List.append_nil]
    decide
  · have hts : trimS ("Exit ".data ++ v) = "Exit ".data ++ v := trimS_exit_append hR hne
    have hlen : ¬ (trimS ("Exit ".data ++ v)).length ≤ 2 := by
      rw [hts, show ("Exit ".data ++ v) = 'E' :: 'x' :: 'i' :: 't' :: ' ' :: v from rfl]
      simp only [List.length_cons]
      omega
    have hpre : "EXIT".data.isPrefixOf (upperS (trimS ("Exit ".data ++ v))) = true := by
      rw [hts, show ("Exit ".data ++ v) = 'E' :: 'x' :: 'i' :: 't' :: ' ' :: v from rfl]
      rfl
    unfold normalize_exit_code
    rw [if_neg (by
      rintro (hcase | hcase)
      · exact hlen hcase
      · exact hcase hpre)]
    rw [hts]
    rw [show (("Exit ".data ++ v).drop 4) = ' ' :: v from rfl]
    rw [show trimLeftS (' ' :: v) = trimLeftS v from by
      simp [trimLeftS, List.dropWhile_cons]]
    rw [hL, takeWhile_ne_newline hn]
    unfold trimS
    rw [hL, hR]

/-- Claim C7 counterexample: the source never upper-cases the residual exit
identifier, so `_normalize_exit_code("Exit   b ")` is `"Exit b"`, not the
`"Exit B"` the claim asserts. -/
theorem normalize_no_uppercase :
    normalize_exit_code "Exit   b ".data = "Exit b".data ∧
      normalize_exit_code "Exit   b ".data ≠ "Exit B".data := by
  constructor
  · decide
  · decide

/-- Claim C7 (amended): `_normalize_exit_code` strips surrounding
whitespace, removes one leading `EXIT` token (case-insensitively, with or
without following whitespace — a trailing `EXIT` token is not removed), and
re-renders the result as `"Exit <remainder>"` with the remainder's letter
case preserved (not upper-cased).  In particular
`normalize("A") = "Exit A"`, `normalize("Exit   b ") = "Exit b"`,
`normalize("EXIT1") = "Exit 1"`, `normalize("A") = normalize("Exit A")`,
while `normalize("EXIT   a") = "Exit a"` differs from `normalize("A")`. -/
theorem normalize_exit_code_spec :
    (∀ code : Str, ∃ r, normalize_exit_code code = "Exit ".data ++ r) ∧
      normalize_exit_code "A".data = "Exit A".data ∧
      normalize_exit_code "Exit   b ".data = "Exit b".data ∧
      normalize_exit_code "EXIT1".data = "Exit 1".data ∧
      normalize_exit_code "A".data = normalize_exit_code "Exit A".data ∧
      normalize_exit_code "EXIT   a".data = "Exit a".data ∧
      normalize_exit_code "A EXIT".data = "Exit A EXIT".data := by
  refine ⟨?_, by decide, by decide, by decide, by decide, by decide, by decide⟩
  intro code
  rcases normalize_shape code with ⟨v, hv, -, -, -⟩
  exact ⟨v, hv⟩

/-- Claim C8 counterexample: normalization is not idempotent on inputs
containing a newline: `"A\nB"` normalizes to `"Exit A\nB"`, but a second
application truncates at the newline (the `.` of `EXIT\s*(.*)` does not
match `\n`), yielding `"Exit A"`. -/
theorem normalize_exit_code_not_idem :
    normalize_exit_code (normalize_exit_code "A\nB".data) ≠
      normalize_exit_code "A\nB".data := by
  decide

/-- Claim C8 (amended): `_normalize_exit_code` is idempotent on every input
that contains no newline character. -/
theorem normalize_exit_code_idem (code : Str) (h : '\n' ∉ code) :
    normalize_exit_code (normalize_exit_code code) = normalize_exit_code code := by
  rcases normalize_shape code with ⟨v, hv, hL, hR, hmem⟩
  rw [hv]
  exact normalize_exit_append hL hR fun hc => h (hmem _ hc)

/-- Witness for the amended claim C8 at the concrete input `"Exit a1"`. -/
theorem normalize_exit_code_idem_witness :
    '\n' ∉ "Exit a1".data ∧
      normalize_exit_code (normalize_exit_code "Exit a1".data) =
        normalize_exit_code "Exit a1".data :=
  ⟨by decide, normalize_exit_code_idem "Exit a1".data (by decide)⟩

/-! ## Helper lemmas: the exit comparator -/

theorem strLt_asymm {x y : Str} (h : strLt x y = true) : strLt y x = false := by
  cases hc : strLt y x
  · rfl
  · have hxx := strLt_trans x y x h hc
    rw [strLt_irrefl] at hxx
    simp at hxx

theorem strLt_neg_trans {a b c : Str} (hab : strLt a b = false) (hbc : strLt b c = false) :
    strLt a c = false := by
  cases hac : strLt a c
  · rfl
  · exfalso
    cases hba : strLt b a
    · have hab2 := strLt_eq_of_not_lt a b hab hba
      subst hab2
      rw [hac] at hbc
      simp at hbc
    · cases hcb : strLt c b
      · have hbc2 := strLt_eq_of_not_lt b c hbc hcb
        subst hbc2
        rw [hac] at hab
        simp at hab
      · have h1 := strLt_trans c b a hcb hba
        have h2 := strLt_trans a c a hac h1
        rw [strLt_irrefl] at h2
        simp at h2

theorem strLt_compl (x y : Str) : (!strLt y x) = (strLt x y || decide (x = y)) := by
  cases hyx : strLt y x
  · cases hxy : strLt x y
    · have hxy2 := strLt_eq_of_not_lt x y hxy hyx
      simp [hxy2]
    · simp
  · have hxyf : strLt x y = false := strLt_asymm hyx
    have hne : x ≠ y := by
      rintro rfl
      rw [strLt_irrefl] at hyx
      simp at hyx
    simp [hxyf, hne]

theorem keyLt_asymm {a b : ExitPoint} (h : keyLt a b = true) : keyLt b a = false := by
  cases hda : isDigitS (sortVal a) <;> cases hdb : isDigitS (sortVal b)
  · simp only [keyLt, hda, hdb] at h ⊢
    exact strLt_asymm h
  · simp only [keyLt, hda, hdb]
  · simp only [keyLt, hda, hdb] at h
    exact Bool.noConfusion h
  · simp only [keyLt, hda, hdb] at h ⊢
    simp only [decide_eq_true_eq] at h
    simp only [decide_eq_false_iff_not]
    omega

theorem keyLt_neg_trans {a b c : ExitPoint} (h1 : keyLt b a = false)
    (h2 : keyLt c b = false) : keyLt c a = false := by
  cases hda : isDigitS (sortVal a) <;> cases hdb : isDigitS (sortVal b) <;>
    cases hdc : isDigitS (sortVal c)
  · simp only [keyLt, hda, hdb, hdc] at h1 h2 ⊢
    exact strLt_neg_trans h2 h1
  · simp only [keyLt, hda, hdb, hdc]
  · simp only [keyLt, hda, hdb, hdc] at h2
    exact Bool.noConfusion h2
  · simp only [keyLt, hda, hdb, hdc]
  · simp only [keyLt, hda, hdb, hdc] at h1
    exact Bool.noConfusion h1
  · simp only [keyLt, hda, hdb, hdc] at h1
    exact Bool.noConfusion h1
  · simp only [keyLt, hda, hdb, hdc] at h2
    exact Bool.noConfusion h2
  · simp only [keyLt, hda, hdb, hdc] at h1 h2 ⊢
    simp only [decide_eq_false_iff_not] at h1 h2 ⊢
    omega

theorem exit_le_total (a b : ExitPoint) : exit_le a b = true ∨ exit_le b a = true := by
  unfold exit_le
  cases hc : keyLt b a
  · simp
  · right
    rw [keyLt_asymm hc]
    rfl

theorem exit_le_trans (a b c : ExitPoint) (h1 : exit_le a b = true)
    (h2 : exit_le b c = true) : exit_le a c = true := by
  unfold exit_le at h1 h2 ⊢
  rw [Bool.not_eq_true'] at h1 h2 ⊢
  exact keyLt_neg_trans h1 h2

/-- The source comparator agrees pointwise with the natural order stated by
the (amended) claim C9. -/
theorem exit_le_eq_naturalLeB (a b : ExitPoint) : exit_le a b = naturalLeB a b := by
  have hid : ∀ e : ExitPoint, identifierOf e = sortVal e := fun _ => rfl
  unfold exit_le naturalLeB
  rw [hid, hid]
  cases hda : isDigitS (sortVal a) <;> cases hdb : isDigitS (sortVal b)
  · simp only [keyLt, hda, hdb, Bool.not_false, Bool.false_and, Bool.true_and,
      Bool.and_false, Bool.and_true, Bool.false_or, Bool.or_false]
    exact strLt_compl (upperS (sortVal a)) (upperS (sortVal b))
  · simp only [keyLt, hda, hdb, Bool.not_false, Bool.not_true, Bool.false_and,
      Bool.true_and, Bool.and_false, Bool.and_true, Bool.false_or, Bool.or_false,
      Bool.true_or, Bool.or_self]
  · simp only [keyLt, hda, hdb, Bool.not_false, Bool.not_true, Bool.false_and,
      Bool.true_and, Bool.and_false, Bool.and_true, Bool.false_or, Bool.or_false,
      Bool.not_true, Bool.or_self]
  · simp only [keyLt, hda, hdb, Bool.not_true, Bool.false_and, Bool.true_and,
      Bool.and_false, Bool.and_true, Bool.false_or, Bool.or_false]
    by_cases h : digitsToNat (sortVal b) < digitsToNat (sortVal a)
    · have h2 : ¬ digitsToNat (sortVal a) ≤ digitsToNat (sortVal b) := by omega
      simp [h, h2]
    · have h2 : digitsToNat (sortVal a) ≤ digitsToNat (sortVal b) := by omega
      simp [h, h2]

/-- Claim C9 (amended): in every `consolidate` output, each station's exits
are sorted by the natural order — non-numeric identifiers (the exit code
with every `"Exit "` occurrence removed and trimmed) before numeric ones,
alphabetically case-insensitively within the former, by value within the
latter — and the spec's concrete example sorts as stated. -/
theorem consolidate_exits_sorted :
    (∀ (dist : Pt → Pt → ℚ) (thr : ℚ) (ms : List RawMatch) (st : Station),
        st ∈ consolidate dist thr ms →
          st.exits.Pairwise fun a b => naturalLeB a b = true) ∧
    ((consolidate distZero 800
        [⟨"YISHUN".data, ["NS13".data],
          [⟨"B".data, 1, 103⟩, ⟨"10".data, 1, 103⟩,
           ⟨"A".data, 1, 103⟩, ⟨"2".data, 1, 103⟩]⟩]).map
      fun st => st.exits.map ExitPoint.exit_code) =
      [["Exit A".data, "Exit B".data, "Exit 2".data, "Exit 10".data]] := by
  constructor
  · intro dist thr ms st hst
    unfold consolidate at hst
    rcases List.mem_map.mp hst with ⟨s0, -, rfl⟩
    have hp := pairwise_sortStable exit_le_trans exit_le_total s0.exits
    exact hp.imp fun h => (exit_le_eq_naturalLeB _ _) ▸ h
  · decide

/-- Witness for claim C9: the station produced by the spec's concrete
example has naturally ordered exits, by the theorem applied at that input. -/
theorem consolidate_exits_sorted_witness :
    (⟨"YISHUN".data, ["NS13".data],
      [⟨"Exit A".data, 1, 103⟩, ⟨"Exit B".data, 1, 103⟩,
       ⟨"Exit 2".data, 1, 103⟩, ⟨"Exit 10".data, 1, 103⟩]⟩ : Station).exits.Pairwise
      (fun a b => naturalLeB a b = true) :=
  consolidate_exits_sorted.1 distZero 800
    [⟨"YISHUN".data, ["NS13".data],
      [⟨"B".data, 1, 103⟩, ⟨"10".data, 1, 103⟩,
       ⟨"A".data, 1, 103⟩, ⟨"2".data, 1, 103⟩]⟩] _ (by decide)

/-- Claim C9 counterexample: with the identifier read as "the exit code with
the `\"Exit \"` prefix removed" (as the claim states it), the output of
`consolidate` is not sorted: an exit code normalizing to `"Exit Exit A"`
keeps sort value `"A"` in the source (replace removes every occurrence) but
has claim-identifier `"Exit A"`, so the source places it before `"Exit B"`
while the claim's order demands the opposite. -/
theorem consolidate_exits_claim_order_fails :
    ((consolidate distZero 800
        [⟨"W".data, ["NS1".data],
          [⟨"EXITExit A".data, 1, 103⟩, ⟨"B".data, 1, 103⟩]⟩]).map
      fun st => st.exits.map ExitPoint.exit_code) =
      [["Exit Exit A".data, "Exit B".data]] ∧
    ¬ ∀ st ∈ consolidate distZero 800
        [⟨"W".data, ["NS1".data],
          [⟨"EXITExit A".data, 1, 103⟩, ⟨"B".data, 1, 103⟩]⟩],
        st.exits.Pairwise fun a b => claimNaturalLeB a b = true := by
  exact ⟨by decide, by decide⟩

/-! ## Claim C6: station-code extraction -/

theorem mem_of_mem_takeWhile_pred {p : Char → Bool} {c : Char} :
    ∀ {s : Str}, c ∈ s.takeWhile p → p c = true := by
  intro s
  induction s with
  | nil => simp
  | cons a t ih =>
    rw [List.takeWhile_cons]
    split_ifs with h
    · intro hm
      rcases List.mem_cons.mp hm with rfl | hm
      · exact h
      · exact ih hm
    · intro hm
      exact absurd hm (List.not_mem_nil c)

theorem tryCode_shape : ∀ (ps : List Str) {s tok rest : Str},
    tryCode s ps = some (tok, rest) →
    ∃ p ∈ ps, ∃ ds : Str, tok = p ++ ds ∧ ∀ c ∈ ds, c.isDigit = true := by
  intro ps
  induction ps with
  | nil =>
    intro s tok rest h
    exact absurd h (by simp [tryCode])
  | cons p ps ih =>
    intro s tok rest h
    unfold tryCode at h
    split_ifs at h with hcond
    · simp only [Option.some.injEq, Prod.mk.injEq] at h
      refine ⟨p, List.mem_cons_self _ _,
        (s.drop p.length).takeWhile Char.isDigit, h.1.symm, ?_⟩
      intro c hc
      exact mem_of_mem_takeWhile_pred hc
    · rcases ih h with ⟨q, hq, hds⟩
      exact ⟨q, List.mem_cons_of_mem _ hq, hds⟩

theorem findCodesF_shape (prefixes : List Str) :
    ∀ (fuel : Nat) (prev : Bool) (s tok : Str),
      tok ∈ findCodesF prefixes fuel prev s →
      ∃ p ∈ prefixes, ∃ ds : Str, tok = p ++ ds ∧ ∀ c ∈ ds, c.isDigit = true := by
  intro fuel
  induction fuel with
  | zero =>
    intro prev s tok h
    cases s <;> simp [findCodesF] at h
  | succ n ih =>
    intro prev s tok h
    cases s with
    | nil => simp [findCodesF] at h
    | cons c rest =>
      unfold findCodesF at h
      split_ifs at h with hprev
      · exact ih _ _ _ h
      · cases htc : tryCode (c :: rest) prefixes with
        | none =>
          rw [htc] at h
          exact ih _ _ _ h
        | some pr =>
          rcases pr with ⟨t, r⟩
          rw [htc] at h
          simp only at h
          rcases List.mem_cons.mp h with rfl | h2
          · exact tryCode_shape prefixes htc
          · exact ih _ _ _ h2

/-- Claim C6: every token returned by `_extract_codes` is one of the
configured prefixes followed only by digits (the word-boundary requirement
is enforced by the scanner `findCodesF` the extraction runs), and inputs
consisting of bare letter-digit exit labels yield the empty set under the
source's default prefix list. -/
theorem extract_codes_tokens :
    (∀ (prefixes : List Str) (text tok : Str), tok ∈ extract_codes prefixes text →
        ∃ p ∈ prefixes, ∃ ds : Str, tok = p ++ ds ∧ ∀ c ∈ ds, c.isDigit = true) ∧
      extract_codes defaultPrefixes "A1".data = [] ∧
      extract_codes defaultPrefixes "B2".data = [] ∧
      extract_codes defaultPrefixes "A1 B2 C3 Z9 Q7".data = [] := by
  refine ⟨?_, by decide, by decide, by decide⟩
  intro prefixes text tok h
  unfold extract_codes at h
  exact findCodesF_shape prefixes _ _ _ _ (mem_sortUnique.mp h)

/-- Witness for claim C6: the token `"NS13"` extracted from the Yishun
search hit decomposes as the prefix `"NS"` plus digits. -/
theorem extract_codes_tokens_witness :
    "NS13".data ∈ extract_codes defaultPrefixes "YISHUN MRT STATION (NS13)".data ∧
      ∃ p ∈ defaultPrefixes, ∃ ds : Str, "NS13".data = p ++ ds ∧
        ∀ c ∈ ds, c.isDigit = true :=
  ⟨by decide, extract_codes_tokens.1 defaultPrefixes
    "YISHUN MRT STATION (NS13)".data "NS13".data (by decide)⟩

/-! ## Claim C3: the merge step -/

theorem mem_mergeStation_codes {c : Str} {m : RawMatch} {s : Station} :
    c ∈ (mergeStation m s).mrt_codes ↔ c ∈ s.mrt_codes ∨ c ∈ m.codes := by
  unfold mergeStation
  simp [mem_sortUnique]

theorem contains_eq_false_iff {a : Str} {l : List Str} :
    l.contains a = false ↔ a ∉ l := by
  simp [List.contains]

theorem addNewExits_filter (k : Str) : ∀ (l : List ExitPoint) (seen : List Str),
    ((addNewExits seen l).filter fun e => decide (e.exit_code = k)) =
      if k ∈ seen then []
      else ((l.find? fun e => decide (normalize_exit_code e.exit_code = k)).map
        fun e => { e with exit_code := k }).toList := by
  intro l
  induction l with
  | nil =>
    intro seen
    simp [addNewExits]
  | cons e rest ih =>
    intro seen
    unfold addNewExits
    cases hseen : seen.contains (normalize_exit_code e.exit_code)
    · simp only [hseen, Bool.false_eq_true, if_false]
      by_cases hk : normalize_exit_code e.exit_code = k
      · rw [List.filter_cons_of_pos (by simp [hk]), ih]
        rw [if_pos (by rw [← hk]; exact List.mem_cons_self _ _)]
        rw [if_neg (by rw [← hk]; exact contains_eq_false_iff.mp hseen)]
        rw [List.find?_cons_of_pos _ (by simp [hk])]
        simp [hk]
      · rw [List.filter_cons_of_neg (by simp [hk]), ih]
        rw [List.find?_cons_of_neg _ (by simp [hk])]
        have hmem : (k ∈ normalize_exit_code e.exit_code :: seen) ↔ k ∈ seen := by
          rw [List.mem_cons]
          constructor
          · rintro (hcc | hcc)
            · exact absurd hcc.symm hk
            · exact hcc
          · exact Or.inr
        by_cases hks : k ∈ seen
        · rw [if_pos (hmem.mpr hks), if_pos hks]
        · rw [if_neg (fun hc => hks (hmem.mp hc)), if_neg hks]
    · simp only [hseen, if_true]
      rw [ih]
      have hn : normalize_exit_code e.exit_code ∈ seen := by
        simpa [List.contains] using hseen
      by_cases hk : normalize_exit_code e.exit_code = k
      · rw [if_pos (hk ▸ hn), if_pos (hk ▸ hn)]
      · rw [List.find?_cons_of_neg _ (by simp [hk])]

theorem mergeInto_some {dist : Pt → Pt → ℚ} {thr : ℚ} {m : RawMatch} :
    ∀ {acc acc1 : List Station}, mergeInto dist thr m acc = some acc1 →
      ∃ l s r, acc = l ++ s :: r ∧ acc1 = l ++ mergeStation m s :: r ∧
        criterion dist thr m s = true ∧ ∀ x ∈ l, criterion dist thr m x = false := by
  intro acc
  induction acc with
  | nil =>
    intro acc1 h
    simp [mergeInto] at h
  | cons s rest ih =>
    intro acc1 h
    unfold mergeInto at h
    split_ifs at h with hc
    · simp only [Option.some.injEq] at h
      exact ⟨[], s, rest, rfl, by simp [← h], hc, by simp⟩
    · cases hmi : mergeInto dist thr m rest with
      | none =>
        rw [hmi] at h
        simp at h
      | some rest1 =>
        rw [hmi] at h
        simp only [Option.map_some', Option.some.injEq] at h
        rcases ih hmi with ⟨l, s0, r, hdec, hres, hcrit, hall⟩
        refine ⟨s :: l, s0, r, by rw [hdec]; rfl, ?_, hcrit, ?_⟩
        · rw [← h, hres]
          rfl
        · intro x hx
          rcases List.mem_cons.mp hx with rfl | hx
          · exact bool_eq_false hc
          · exact hall x hx

/-- Claim C3: whenever `consolidate`'s scan merges a match into an entry the
entry is rewritten by `mergeStation`; the merged entry's code set is the
union of the old entry's codes and the match's codes; the old exits are kept
unchanged as a prefix (so the coordinates of the first-processed match win);
and among the appended exits, for every exit code `k` exactly the *first*
exit of the match normalizing to `k` appears (carrying `k` and its original
coordinates), and only when no exit of the entry already normalizes to `k`.
-/
theorem mergeStation_spec :
    (∀ (dist : Pt → Pt → ℚ) (thr : ℚ) (m : RawMatch) (acc acc1 : List Station),
        mergeInto dist thr m acc = some acc1 →
        ∃ l s r, acc = l ++ s :: r ∧ acc1 = l ++ mergeStation m s :: r) ∧
    ∀ (m : RawMatch) (s : Station),
      (∀ c, c ∈ (mergeStation m s).mrt_codes ↔ c ∈ s.mrt_codes ∨ c ∈ m.codes) ∧
      s.exits <+: (mergeStation m s).exits ∧
      ∀ k, (((mergeStation m s).exits.drop s.exits.length).filter
            fun e => decide (e.exit_code = k)) =
          if k ∈ s.exits.map (fun e => normalize_exit_code e.exit_code) then []
          else ((m.exits.find? fun e => decide (normalize_exit_code e.exit_code = k)).map
            fun e => { e with exit_code := k }).toList := by
  constructor
  · intro dist thr m acc acc1 h
    rcases mergeInto_some h with ⟨l, s, r, h1, h2, -, -⟩
    exact ⟨l, s, r, h1, h2⟩
  · intro m s
    refine ⟨fun c => mem_mergeStation_codes, ?_, ?_⟩
    · exact List.prefix_append _ _
    · intro k
      show ((s.exits ++ addNewExits _ m.exits).drop s.exits.length).filter _ = _
      rw [List.drop_left]
      exact addNewExits_filter k m.exits _

/-- Witness for claim C3: a concrete merge event inside the scan, decomposed
by the theorem. -/
theorem mergeStation_spec_witness :
    ∃ l s r,
      ([⟨"X".data, ["A".data], [⟨"Exit 1".data, 1, 103⟩]⟩] : List Station) = l ++ s :: r ∧
      [mergeStation ⟨"X".data, ["B".data], [⟨"2".data, 1, 103⟩]⟩
          ⟨"X".data, ["A".data], [⟨"Exit 1".data, 1, 103⟩]⟩] =
        l ++ mergeStation ⟨"X".data, ["B".data], [⟨"2".data, 1, 103⟩]⟩ s :: r :=
  mergeStation_spec.1 distZero 800 ⟨"X".data, ["B".data], [⟨"2".data, 1, 103⟩]⟩
    [⟨"X".data, ["A".data], [⟨"Exit 1".data, 1, 103⟩]⟩] _ (by decide)

/-! ## Claim C1: shared codes across output entries -/

theorem pairwise_replace_merge {m : RawMatch} {l r : List Station} {s0 : Station}
    (hp : (l ++ s0 :: r).Pairwise fun s t => ∀ c ∈ s.mrt_codes, c ∉ t.mrt_codes)
    (hm : ∀ t ∈ l ++ s0 :: r, ∀ c ∈ t.mrt_codes, c ∉ m.codes) :
    (l ++ mergeStation m s0 :: r).Pairwise
      fun s t => ∀ c ∈ s.mrt_codes, c ∉ t.mrt_codes := by
  rw [List.pairwise_append, List.pairwise_cons] at hp ⊢
  rcases hp with ⟨hl, ⟨hs0r, hr⟩, hcross⟩
  refine ⟨hl, ⟨?_, hr⟩, ?_⟩
  · intro t ht c hc
    rcases mem_mergeStation_codes.mp hc with hc | hc
    · exact hs0r t ht c hc
    · intro hct
      exact hm t (List.mem_append_right l (List.mem_cons_of_mem s0 ht)) c hct hc
  · intro a ha b hb
    rcases List.mem_cons.mp hb with rfl | hb
    · intro c hc
      rw [mem_mergeStation_codes]
      rintro (hcs | hcm)
      · exact hcross a ha s0 (List.mem_cons_self _ _) c hc hcs
      · exact hm a (List.mem_append_left _ ha) c hc hcm
    · exact hcross a ha b (List.mem_cons_of_mem _ hb)

theorem consolidateLoop_disjoint (dist : Pt → Pt → ℚ) (thr : ℚ) :
    ∀ (ms : List RawMatch) (acc : List Station),
      ms.Pairwise (fun m1 m2 => ∀ c ∈ m1.codes, c ∉ m2.codes) →
      acc.Pairwise (fun s t => ∀ c ∈ s.mrt_codes, c ∉ t.mrt_codes) →
      (∀ s ∈ acc, ∀ mm ∈ ms, ∀ c ∈ s.mrt_codes, c ∉ mm.codes) →
      (consolidateLoop dist thr ms acc).Pairwise
        fun s t => ∀ c ∈ s.mrt_codes, c ∉ t.mrt_codes := by
  intro ms
  induction ms with
  | nil =>
    intro acc _ hacc _
    exact hacc
  | cons m rest ih =>
    intro acc hms hacc hdisj
    rw [List.pairwise_cons] at hms
    unfold consolidateLoop
    cases hmi : mergeInto dist thr m acc with
    | none =>
      apply ih _ hms.2
      · rw [List.pairwise_append]
        refine ⟨hacc, by simp, ?_⟩
        intro s hs t ht
        rcases List.mem_singleton.mp ht with rfl
        intro c hc
        exact hdisj s hs m (List.mem_cons_self _ _) c hc
      · intro s hs mm hmm
        rcases List.mem_append.mp hs with hs | hs
        · exact hdisj s hs mm (List.mem_cons_of_mem _ hmm)
        · rcases List.mem_singleton.mp hs with rfl
          intro c hc
          exact hms.1 mm hmm c hc
    | some acc1 =>
      rcases mergeInto_some hmi with ⟨l, s0, r, hdec, hres, -, -⟩
      subst hdec
      subst hres
      apply ih _ hms.2
      · exact pairwise_replace_merge hacc
          fun t ht c hc => hdisj t ht m (List.mem_cons_self _ _) c hc
      · intro s hs mm hmm
        rcases List.mem_append.mp hs with hs | hs
        · exact hdisj s (List.mem_append_left _ hs) mm (List.mem_cons_of_mem _ hmm)
        · rcases List.mem_cons.mp hs with rfl | hs
          · intro c hc
            rcases mem_mergeStation_codes.mp hc with hc | hc
            · exact hdisj s0 (List.mem_append_right _ (List.mem_cons_self _ _)) mm
                (List.mem_cons_of_mem _ hmm) c hc
            · exact hms.1 mm hmm c hc
          · exact hdisj s (List.mem_append_right _ (List.mem_cons_of_mem _ hs)) mm
              (List.mem_cons_of_mem _ hmm)

/-- Claim C1 (amended): when the input matches carry pairwise disjoint code
sets, no two distinct entries of `consolidate`'s output share a code. -/
theorem consolidate_disjoint_codes (dist : Pt → Pt → ℚ) (thr : ℚ) (ms : List RawMatch)
    (hdisj : ms.Pairwise fun m1 m2 => ∀ c ∈ m1.codes, c ∉ m2.codes)
    (_hne : ∀ m ∈ ms, m.exits ≠ []) :
    (consolidate dist thr ms).Pairwise
      fun s t => ∀ c ∈ s.mrt_codes, c ∉ t.mrt_codes := by
  unfold consolidate
  rw [List.pairwise_map]
  exact consolidateLoop_disjoint dist thr ms [] hdisj (by simp) (by simp)

/-- Witness for the amended claim C1 at a concrete disjoint-code input. -/
theorem consolidate_disjoint_codes_witness :
    (consolidate distZero 800
      [⟨"X".data, ["NS1".data], [⟨"A".data, 1, 103⟩]⟩,
       ⟨"Y".data, ["EW2".data], [⟨"B".data, 1, 103⟩]⟩]).Pairwise
      (fun s t => ∀ c ∈ s.mrt_codes, c ∉ t.mrt_codes) :=
  consolidate_disjoint_codes distZero 800 _ (by decide) (by decide)

/-- Claim C1 counterexample: with every exit at one coordinate (all
distances exactly 0, matching the source's haversine), the matches
`(name X, codes A)`, `(name Y, codes B)`, `(name X, codes B)` produce two
entries — the third match merges into the first by exact name, carrying the
code `B` that the second entry already holds — so two distinct output
entries share the code `B` even though every match has non-empty exits. -/
theorem consolidate_shares_code :
    (∀ m ∈ ([⟨"X".data, ["A".data], [⟨"1".data, 1, 103⟩]⟩,
             ⟨"Y".data, ["B".data], [⟨"1".data, 1, 103⟩]⟩,
             ⟨"X".data, ["B".data], [⟨"1".data, 1, 103⟩]⟩] : List RawMatch),
        m.exits ≠ []) ∧
    ¬ (consolidate distZero 800
        [⟨"X".data, ["A".data], [⟨"1".data, 1, 103⟩]⟩,
         ⟨"Y".data, ["B".data], [⟨"1".data, 1, 103⟩]⟩,
         ⟨"X".data, ["B".data], [⟨"1".data, 1, 103⟩]⟩]).Pairwise
        (fun s t => ∀ c ∈ s.mrt_codes, c ∉ t.mrt_codes) := by
  exact ⟨by decide, by decide⟩

/-! ## Claim C2: merge-target selection -/

theorem criterion_eq_criterionSpec : criterion = criterionSpec := by
  funext dist thr m s
  unfold criterion criterionSpec
  rfl

theorem mergeInto_eq_findIdx (dist : Pt → Pt → ℚ) (thr : ℚ) (m : RawMatch) :
    ∀ acc : List Station,
      mergeInto dist thr m acc =
        (List.findIdx? (fun s => criterion dist thr m s) acc).map
          fun i => List.modify (mergeStation m) i acc := by
  intro acc
  induction acc with
  | nil => rfl
  | cons s rest ih =>
    unfold mergeInto
    rw [List.findIdx?_cons]
    split_ifs with hc
    · simp [List.modify]
    · rw [ih, List.findIdx?_succ]
      cases List.findIdx? (fun s => criterion dist thr m s) rest with
      | none => rfl
      | some i => simp [List.modify]

theorem consolidateLoop_eq_spec (dist : Pt → Pt → ℚ) (thr : ℚ) :
    ∀ (ms : List RawMatch) (acc : List Station),
      consolidateLoop dist thr ms acc = ms.foldl (specStep dist thr) acc := by
  intro ms
  induction ms with
  | nil => intro acc; rfl
  | cons m rest ih =>
    intro acc
    unfold consolidateLoop
    rw [List.foldl_cons, mergeInto_eq_findIdx]
    show _ = List.foldl (specStep dist thr) (specStep dist thr acc m) rest
    unfold specStep
    rw [← criterion_eq_criterionSpec]
    cases List.findIdx? (fun s => criterion dist thr m s) acc with
    | none => exact ih _
    | some i => exact ih _

/-- Claim C2 (amended): `consolidate` processes the matches in input order
and merges each into the entry at the *first* index of the consolidated
list satisfying any of the three criteria — code overlap with distance
below the spatial threshold, identical official name with distance below
300, or equal base names with distance below the threshold, where the base
name is the upper-cased name with every occurrence of the four suffix
tokens (`" MRT/LRT STATION"`, `" MRT STATION"`, `" LRT STATION"`,
`" STATION"`, replaced in that order) removed and whitespace trimmed — and
appends a fresh entry when no index qualifies. -/
theorem consolidate_eq_specConsolidate : consolidate = specConsolidate := by
  funext dist thr ms
  unfold consolidate specConsolidate
  rw [consolidateLoop_eq_spec]

/-- Claim C2 counterexample: with the base name read as literal *suffix*
stripping (as the claim states it), the two matches below satisfy none of
the three criteria — their claim-side base names differ (the `" STATION"`
token sits in the middle of the first name, not at its end), their code
sets are disjoint, and their official names differ — yet the source merges
them into a single entry, because `str.replace` removes the token anywhere
in the string. -/
theorem consolidate_base_name_not_suffix :
    (consolidate distZero 800
      [⟨"ALPHA STATION ONE".data, ["NS1".data], [⟨"1".data, 1, 103⟩]⟩,
       ⟨"ALPHA ONE".data, ["EW2".data], [⟨"2".data, 1, 103⟩]⟩]).length = 1 ∧
    claimBaseName "ALPHA STATION ONE".data ≠ claimBaseName "ALPHA ONE".data ∧
    codesIntersect ["NS1".data] ["EW2".data] = false ∧
    "ALPHA STATION ONE".data ≠ "ALPHA ONE".data := by
  exact ⟨by decide, by decide, by decide, by decide⟩

/-! ## Claims C4 and C5: the matcher's result and error behaviour -/

theorem loopStep_ok_of_wellFormed {prefixes : List Str} {score : Str → Str → ℚ}
    {dist : Pt → Pt → ℚ} {epsilon : ℚ} {datagov_name : Str} {centroid : Pt}
    {r : SearchHit} (h : r.wellFormed = true) (st : LoopState) :
    ∃ st1, loopStep prefixes score dist epsilon datagov_name centroid st r = .ok st1 := by
  rcases r with ⟨b, la, lo⟩
  unfold SearchHit.wellFormed at h
  simp only [Bool.and_eq_true, Option.isSome_iff_exists] at h
  rcases h with ⟨⟨⟨b1, hb⟩, la1, hla⟩, lo1, hlo⟩
  subst hb
  subst hla
  subst hlo
  unfold loopStep
  dsimp only
  split_ifs <;> exact ⟨_, rfl⟩

theorem loopStep_error_of_malformed {prefixes : List Str} {score : Str → Str → ℚ}
    {dist : Pt → Pt → ℚ} {epsilon : ℚ} {datagov_name : Str} {centroid : Pt}
    {r : SearchHit} (h : r.wellFormed = false) (st : LoopState) :
    loopStep prefixes score dist epsilon datagov_name centroid st r = .error () := by
  rcases r with ⟨b, la, lo⟩
  cases b <;> cases la <;> cases lo <;>
    first
      | rfl
      | (exfalso; simp [SearchHit.wellFormed] at h)

theorem foldlM_ok_of_wellFormed {prefixes : List Str} {score : Str → Str → ℚ}
    {dist : Pt → Pt → ℚ} {epsilon : ℚ} {datagov_name : Str} {centroid : Pt} :
    ∀ (results : List SearchHit) (st0 : LoopState),
      (∀ r ∈ results, r.wellFormed = true) →
      ∃ st, results.foldlM (loopStep prefixes score dist epsilon datagov_name centroid)
        st0 = .ok st := by
  intro results
  induction results with
  | nil =>
    intro st0 _
    exact ⟨st0, rfl⟩
  | cons r rest ih =>
    intro st0 hwf
    rcases loopStep_ok_of_wellFormed (hwf r (List.mem_cons_self _ _)) st0 with ⟨st1, hst1⟩
    rcases ih st1 (fun x hx => hwf x (List.mem_cons_of_mem _ hx)) with ⟨st2, hst2⟩
    refine ⟨st2, ?_⟩
    rw [List.foldlM_cons, hst1]
    show List.foldlM _ st1 rest = Except.ok st2
    exact hst2

theorem foldlM_error_of_malformed {prefixes : List Str} {score : Str → Str → ℚ}
    {dist : Pt → Pt → ℚ} {epsilon : ℚ} {datagov_name : Str} {centroid : Pt} :
    ∀ (results : List SearchHit) (st0 : LoopState),
      (∃ r ∈ results, r.wellFormed = false) →
      results.foldlM (loopStep prefixes score dist epsilon datagov_name centroid)
        st0 = .error () := by
  intro results
  induction results with
  | nil =>
    intro st0 h
    rcases h with ⟨r, hr, -⟩
    cases hr
  | cons r rest ih =>
    intro st0 h
    rw [List.foldlM_cons]
    cases hwf : r.wellFormed
    · rw [loopStep_error_of_malformed hwf st0]
      rfl
    · rcases loopStep_ok_of_wellFormed hwf st0 with ⟨st1, hst1⟩
      rw [hst1]
      show List.foldlM _ st1 rest = Except.error ()
      apply ih
      rcases h with ⟨x, hx, hxwf⟩
      rcases List.mem_cons.mp hx with rfl | hx
      · rw [hwf] at hxwf
        cases hxwf
      · exact ⟨x, hx, hxwf⟩

/-- Claim C4 (amended): with well-formed candidates, `match_station` returns
no result exactly when the code set accumulated by the candidate loop is
still empty after the nearest-station fallback; any returned result carries
the sorted, duplicate-free, non-empty list of the accumulated codes as
`codes`, and as `official_name` the provisional best name (the fallback name
when the fallback ran) — falling back to the upper-cased source name when no
name was ever set *or the provisional name is the empty string* (Python
truthiness of `best_name if best_name else datagov_name.upper()`). -/
theorem match_station_result (prefixes : List Str) (score : Str → Str → ℚ)
    (dist : Pt → Pt → ℚ) (epsilon : ℚ) (results : List SearchHit)
    (nearby : List NearbyHit) (datagov_name : Str) (exits : List ExitPoint)
    (hwf : ∀ r ∈ results, r.wellFormed = true) (_hne : exits ≠ []) :
    ∃ st : LoopState,
      results.foldlM (loopStep prefixes score dist epsilon datagov_name (centroidD exits))
        ([], none, -1) = .ok st ∧
      (match_station prefixes score dist epsilon results nearby datagov_name exits =
          .ok none ↔ (fallback prefixes nearby st).1 = []) ∧
      ∀ res, match_station prefixes score dist epsilon results nearby datagov_name exits =
          .ok (some res) →
        res.codes = sortUnique (fallback prefixes nearby st).1 ∧
        res.codes ≠ [] ∧
        res.codes.Pairwise (fun a b => strLt a b = true) ∧
        res.official_name = chooseName (fallback prefixes nearby st).2 datagov_name := by
  rcases foldlM_ok_of_wellFormed results ([], none, -1) hwf with ⟨st, hst⟩
  refine ⟨st, hst, ?_, ?_⟩
  · unfold match_station
    rw [hst]
    by_cases hemp : (fallback prefixes nearby st).1 = []
    · simp [Except.map, hemp]
    · simp [Except.map, hemp]
  · intro res hres
    unfold match_station at hres
    rw [hst] at hres
    by_cases hemp : (fallback prefixes nearby st).1 = []
    · simp [Except.map, hemp] at hres
    · simp only [Except.map, hemp, if_false] at hres
      simp only [Except.ok.injEq, Option.some.injEq] at hres
      subst hres
      exact ⟨rfl, sortUnique_ne_nil hemp, pairwise_sortUnique _, rfl⟩

/-- Witness for claim C4 at the Yishun scenario (one in-range well-formed
candidate, no fallback needed). -/
theorem match_station_result_witness :
    ∃ st : LoopState,
      ([sampleHitOk].foldlM (loopStep defaultPrefixes scoreConst distZero 800
        "YISHUN".data (centroidD [⟨"A".data, 1, 103⟩])) ([], none, -1) = .ok st) ∧
      (match_station defaultPrefixes scoreConst distZero 800 [sampleHitOk] []
          "YISHUN".data [⟨"A".data, 1, 103⟩] = .ok none ↔
        (fallback defaultPrefixes [] st).1 = []) ∧
      ∀ res, match_station defaultPrefixes scoreConst distZero 800 [sampleHitOk] []
          "YISHUN".data [⟨"A".data, 1, 103⟩] = .ok (some res) →
        res.codes = sortUnique (fallback defaultPrefixes [] st).1 ∧
        res.codes ≠ [] ∧
        res.codes.Pairwise (fun a b => strLt a b = true) ∧
        res.official_name = chooseName (fallback defaultPrefixes [] st).2 "YISHUN".data :=
  match_station_result defaultPrefixes scoreConst distZero 800 [sampleHitOk] []
    "YISHUN".data [⟨"A".data, 1, 103⟩] (by decide) (by decide)

/-- Claim C4 counterexample: a well-formed in-range candidate named
`"(NS13)"` contributes the code `NS13` and *does* set a provisional best
name — the parenthetical-stripping clean reduces it to the empty string —
yet the program's `official_name` is the upper-cased source name, not that
provisional name: Python's `best_name if best_name else
datagov_name.upper()` treats the empty string as falsy, while the claim
allows the source-name fallback only "if no name was ever set". -/
theorem match_station_empty_best_name :
    ([⟨some "(NS13)".data, some 1, some 103⟩] : List SearchHit).foldlM
        (loopStep defaultPrefixes scoreConst distZero 800 "YISHUN".data
          (centroidD [⟨"A".data, 1, 103⟩])) ([], none, -1) =
      .ok (["NS13".data], some [], 50) ∧
    (match_station defaultPrefixes scoreConst distZero 800
        [⟨some "(NS13)".data, some 1, some 103⟩] [] "YISHUN".data
        [⟨"A".data, 1, 103⟩]).map (Option.map MatchResult.official_name) =
      .ok (some (upperS "YISHUN".data)) ∧
    upperS "YISHUN".data ≠ ([] : Str) := by
  exact ⟨by decide, by decide, by decide⟩

/-- Claim C5 (amended): the Matcher does *not* skip malformed candidates —
if any candidate in the search response lacks the name, latitude or
longitude field, `match_station` aborts the whole group's resolution with an
uncaught `KeyError`, even when other candidates are well-formed. -/
theorem match_station_error_of_malformed (prefixes : List Str) (score : Str → Str → ℚ)
    (dist : Pt → Pt → ℚ) (epsilon : ℚ) (results : List SearchHit)
    (nearby : List NearbyHit) (datagov_name : Str) (exits : List ExitPoint)
    (h : ∃ r ∈ results, r.wellFormed = false) :
    match_station prefixes score dist epsilon results nearby datagov_name exits =
      .error () := by
  unfold match_station
  rw [foldlM_error_of_malformed results _ h]
  rfl

/-- Witness for the amended claim C5: one malformed candidate among two. -/
theorem match_station_error_of_malformed_witness :
    match_station defaultPrefixes scoreConst distZero 800 [sampleHitOk, sampleHitBad] []
      "YISHUN".data [⟨"A".data, 1, 103⟩] = .error () :=
  match_station_error_of_malformed defaultPrefixes scoreConst distZero 800
    [sampleHitOk, sampleHitBad] [] "YISHUN".data [⟨"A".data, 1, 103⟩]
    ⟨sampleHitBad, by decide, by decide⟩

/-- Claim C5 counterexample: a group with one well-formed in-range candidate
and one candidate missing its latitude raises instead of resolving, whereas
the well-formed subset alone resolves to the codes `["NS13"]` and name
`"YISHUN MRT STATION"` — so the malformed candidate is not skipped. -/
theorem match_station_not_malformed_tolerant :
    match_station defaultPrefixes scoreConst distZero 800 [sampleHitOk, sampleHitBad] []
      "YISHUN".data [⟨"A".data, 1, 103⟩] = .error () ∧
    (match_station defaultPrefixes scoreConst distZero 800 [sampleHitOk] []
        "YISHUN".data [⟨"A".data, 1, 103⟩]).map (Option.map MatchResult.codes) =
      .ok (some ["NS13".data]) ∧
    (match_station defaultPrefixes scoreConst distZero 800 [sampleHitOk] []
        "YISHUN".data [⟨"A".data, 1, 103⟩]).map (Option.map MatchResult.official_name) =
      .ok (some "YISHUN MRT STATION".data) := by
  exact ⟨by decide, by decide, by decide⟩

/-! ## Claim C10: the consolidator never mutates its input -/

theorem addNewExitsR_store : ∀ (l : List Ref) (st : Store) (seen : List Str),
    ∃ ext, (addNewExitsR st seen l).2 = st ++ ext := by
  intro l
  induction l with
  | nil =>
    intro st seen
    exact ⟨[], by simp [addNewExitsR]⟩
  | cons r rest ih =>
    intro st seen
    unfold addNewExitsR
    cases hseen : seen.contains (normalize_exit_code (readE st r).exit_code)
    · simp only [hseen, Bool.false_eq_true, if_false]
      rcases ih (st ++ [{ readE st r with
          exit_code := normalize_exit_code (readE st r).exit_code }])
        (normalize_exit_code (readE st r).exit_code :: seen) with ⟨ext2, hext2⟩
      exact ⟨[{ readE st r with
          exit_code := normalize_exit_code (readE st r).exit_code }] ++ ext2,
        by rw [hext2, List.append_assoc]⟩
    · simp only [hseen, if_true]
      exact ih st seen

theorem mergeIntoR_store {dist : Pt → Pt → ℚ} {thr : ℚ} {m : RawMatchR} :
    ∀ {acc : List StationR} {st : Store} {p : List StationR × Store},
      mergeIntoR dist thr m st acc = some p → ∃ ext, p.2 = st ++ ext := by
  intro acc
  induction acc with
  | nil =>
    intro st p h
    simp [mergeIntoR] at h
  | cons s rest ih =>
    intro st p h
    unfold mergeIntoR at h
    split_ifs at h with hc
    · simp only [Option.some.injEq] at h
      rcases addNewExitsR_store m.exits st
        (s.exits.map fun r => normalize_exit_code (readE st r).exit_code) with ⟨ext, hext⟩
      exact ⟨ext, by rw [← h]; exact hext⟩
    · cases hmi : mergeIntoR dist thr m st rest with
      | none =>
        rw [hmi] at h
        simp at h
      | some q =>
        rw [hmi] at h
        simp only [Option.map_some', Option.some.injEq] at h
        rcases ih hmi with ⟨ext, hext⟩
        exact ⟨ext, by rw [← h]; exact hext⟩

theorem consolidateLoopR_store (dist : Pt → Pt → ℚ) (thr : ℚ) :
    ∀ (ms : List RawMatchR) (st : Store) (acc : List StationR),
      ∃ ext, (consolidateLoopR dist thr ms st acc).2 = st ++ ext := by
  intro ms
  induction ms with
  | nil =>
    intro st acc
    exact ⟨[], by simp [consolidateLoopR]⟩
  | cons m rest ih =>
    intro st acc
    unfold consolidateLoopR
    cases hmi : mergeIntoR dist thr m st acc with
    | some p =>
      rcases ih p.2 p.1 with ⟨ext2, hext2⟩
      rcases mergeIntoR_store hmi with ⟨ext1, hext1⟩
      exact ⟨ext1 ++ ext2, by rw [hext2, hext1, List.append_assoc]⟩
    | none =>
      rcases ih (newEntryR st m).2 (acc ++ [(newEntryR st m).1]) with ⟨ext2, hext2⟩
      rcases addNewExitsR_store m.exits st [] with ⟨ext1, hext1⟩
      refine ⟨ext1 ++ ext2, ?_⟩
      rw [hext2]
      show (addNewExitsR st [] m.exits).2 ++ ext2 = st ++ (ext1 ++ ext2)
      rw [hext1, List.append_assoc]

/-- Claim C10: `consolidate` leaves its input unchanged.  In the
reference-level embedding — where exit records are heap objects addressed by
a store and every record the algorithm writes is freshly allocated (the
`.copy()` calls of the source; name strings and code lists are never
mutated, merge results being newly built lists) — the final store extends
the initial one, so every pre-existing exit record, and hence every input
match's `official_name`, `codes` and original exits with their `exit_code`
and coordinates, reads back unchanged after the call. -/
theorem consolidateR_frame (dist : Pt → Pt → ℚ) (thr : ℚ) (ms : List RawMatchR)
    (st : Store) :
    (∃ ext, (consolidateR dist thr ms st).2 = st ++ ext) ∧
    ∀ r, r < st.length → readE (consolidateR dist thr ms st).2 r = readE st r := by
  rcases consolidateLoopR_store dist thr ms st [] with ⟨ext, hext⟩
  have hmain : (consolidateR dist thr ms st).2 = st ++ ext := hext
  refine ⟨⟨ext, hmain⟩, ?_⟩
  intro r hr
  rw [hmain]
  unfold readE
  exact List.getD_append _ _ _ _ hr

/-- Witness for claim C10 at a one-match, one-record store. -/
theorem consolidateR_frame_witness :
    (∃ ext, (consolidateR distZero 800 [⟨"X".data, ["A".data], [0]⟩]
        [⟨"A".data, 1, 103⟩]).2 = [⟨"A".data, 1, 103⟩] ++ ext) ∧
      readE (consolidateR distZero 800 [⟨"X".data, ["A".data], [0]⟩]
        [⟨"A".data, 1, 103⟩]).2 0 = readE [⟨"A".data, 1, 103⟩] 0 :=
  ⟨(consolidateR_frame distZero 800 [⟨"X".data, ["A".data], [0]⟩]
      [⟨"A".data, 1, 103⟩]).1,
    (consolidateR_frame distZero 800 [⟨"X".data, ["A".data], [0]⟩]
      [⟨"A".data, 1, 103⟩]).2 0 (by decide)⟩

end SgRail
